import Mathlib

/-!
Verification of the bounded multi-source Reddit comment collector in `app.py`.

The program is shallowly embedded: Python `datetime` values become epoch
seconds (`Int`, compared exactly as the datetimes compare), the Reddit API
becomes an explicit `World` mapping a search request to either an error
(a raised exception) or a list of submissions, and the three nested loops
of `get_reddit_comments` (sources, submissions, comments) become three
structurally recursive functions carrying the accumulated record list.
-/

set_option autoImplicit false

namespace RedditApp

/-- A comment as consumed by the program: `comment.body`, `comment.score`,
`comment.permalink` and `comment.created_utc` (epoch seconds). -/
structure Comment where
  body : String
  score : Int
  permalink : String
  created_utc : Int
  deriving DecidableEq

/-- A submission as consumed by the program: `submission.title`,
`submission.subreddit.display_name`, `submission.created_utc`, and the flat
list `submission.comments.list()` obtained after
`submission.comments.replace_more(limit=0)` discarded placeholder nodes. -/
structure Submission where
  title : String
  subreddit : String
  created_utc : Int
  comments : List Comment
  deriving DecidableEq

/-- One record appended to `comments_data` (the dict built at app.py lines
52-59).  `created` holds `comment_created.date()`, modelled as the floor of
the epoch-second timestamp divided by 86400 (the day index). -/
structure Record where
  comment : String
  score : Int
  submissionTitle : String
  subreddit : String
  permalink : String
  created : Int
  deriving DecidableEq

/-- The argument bundle of `reddit.subreddit(sub).search(query, sort="top",
limit=100, time_filter="year")`. -/
structure SearchRequest where
  subreddit : String
  query : String
  sort : String
  limit : Nat
  time_filter : String
  deriving DecidableEq

/-- The external world: `now` is `datetime.utcnow()` in epoch seconds and
`search` is the Reddit API, returning either the submissions of a search or
an error (an exception raised while fetching that source). -/
structure World where
  now : Int
  search : SearchRequest → Except String (List Submission)

/-- The query string `f'title:"{keyword}"'` (app.py line 37). -/
def queryOf (keyword : String) : String :=
  "title:\"" ++ keyword ++ "\""

/-- Whether `needle` begins `haystack`, character by character. -/
def beginsWith : List Char → List Char → Bool
  | [], _ => true
  | _ :: _, [] => false
  | a :: as, b :: bs => decide (a = b) && beginsWith as bs

/-- The Python substring test `needle in haystack` on character lists:
true exactly when `needle` occurs contiguously inside `haystack`. -/
def containsSeq (needle : List Char) : List Char → Bool
  | [] => beginsWith needle []
  | c :: cs => beginsWith needle (c :: cs) || containsSeq needle cs

/-- Python `str.lower()`, as the character sequence of the lowered string. -/
def lower (s : String) : List Char :=
  s.data.map Char.toLower

/-- The test guarding an append (app.py line 51):
`keyword.lower() in comment.body.lower() and start_date <= comment_created <= end_date`. -/
def commentMatches (keyword : String) (start_date end_date : Int) (c : Comment) : Bool :=
  containsSeq (lower keyword) (lower c.body) &&
    (decide (start_date ≤ c.created_utc) && decide (c.created_utc ≤ end_date))

/-- The submission-level window test (app.py line 45):
`start_date <= created <= end_date` for `created = utcfromtimestamp(submission.created_utc)`. -/
def inWindow (start_date end_date : Int) (sub : Submission) : Bool :=
  decide (start_date ≤ sub.created_utc) && decide (sub.created_utc ≤ end_date)

/-- The dict appended at app.py lines 52-59. -/
def mkRecord (sub : Submission) (c : Comment) : Record where
  comment := c.body
  score := c.score
  submissionTitle := sub.title
  subreddit := sub.subreddit
  permalink := "https://reddit.com" ++ c.permalink
  created := Int.fdiv c.created_utc 86400

/-- The comment loop (app.py lines 49-61): for each comment, append a record
when `commentMatches`, then `break` as soon as `len(comments_data) >= 100`. -/
def processComments (keyword : String) (start_date end_date : Int) (sub : Submission) :
    List Comment → List Record → List Record
  | [], acc => acc
  | c :: cs, acc =>
    let acc1 := if commentMatches keyword start_date end_date c
      then acc ++ [mkRecord sub c] else acc
    if 100 ≤ acc1.length then acc1
    else processComments keyword start_date end_date sub cs acc1

/-- The submission loop (app.py lines 43-63): skip (`continue`) submissions
outside the window, otherwise run the comment loop, then `break` as soon as
`len(comments_data) >= 100`. -/
def processSubmissions (keyword : String) (start_date end_date : Int) :
    List Submission → List Record → List Record
  | [], acc => acc
  | sub :: rest, acc =>
    if inWindow start_date end_date sub then
      let acc1 := processComments keyword start_date end_date sub sub.comments acc
      if 100 ≤ acc1.length then acc1
      else processSubmissions keyword start_date end_date rest acc1
    else processSubmissions keyword start_date end_date rest acc

/-- The source loop (app.py lines 40-65): issue the search for each source in
order; a failed fetch is caught (`except ... st.warning`) and the loop simply
moves on.  Note the outer loop has no cap check of its own. -/
def processSources (w : World) (keyword : String) (start_date end_date : Int) (q : String) :
    List String → List Record → List Record
  | [], acc => acc
  | sub :: rest, acc =>
    match w.search ⟨sub, q, "top", 100, "year"⟩ with
    | Except.error _ => processSources w keyword start_date end_date q rest acc
    | Except.ok subs =>
        processSources w keyword start_date end_date q rest
          (processSubmissions keyword start_date end_date subs acc)

/-- `target_subreddits = subreddits if subreddits else ["all"]` (app.py line
38); `None` and the empty list are both falsy in Python. -/
def target_subreddits : Option (List String) → List String
  | none => ["all"]
  | some [] => ["all"]
  | some (s :: ss) => s :: ss

/-- `get_reddit_comments(keyword, days, subreddits)` (app.py lines 33-66). -/
def get_reddit_comments (w : World) (keyword : String) (days : Nat)
    (subreddits : Option (List String)) : List Record :=
  let end_date := w.now
  let start_date := end_date - (days : Int) * 86400
  processSources w keyword start_date end_date (queryOf keyword)
    (target_subreddits subreddits) []

/-- Python `custom_subs.split(",")` on character lists: split at every comma,
never collapsing adjacent separators, so the empty input yields one empty
piece. -/
def splitOnComma : List Char → List (List Char)
  | [] => [[]]
  | c :: cs =>
    if c = ',' then [] :: splitOnComma cs
    else match splitOnComma cs with
      | [] => [[c]]
      | piece :: rest => (c :: piece) :: rest

/-- Drop leading whitespace characters. -/
def dropLeading : List Char → List Char
  | [] => []
  | c :: cs => if c.isWhitespace then dropLeading cs else c :: cs

/-- Python `s.strip()`: drop leading and trailing whitespace. -/
def strip (cs : List Char) : List Char :=
  ((dropLeading cs).reverse |> dropLeading).reverse

/-- The cleaned source list: `[s.strip() for s in custom_subs.split(",") if s.strip()]`
(app.py line 80, before the `[:5]` truncation). -/
def cleaned_sources (custom_subs : String) : List String :=
  (((splitOnComma custom_subs.data).map (fun cs => String.mk (strip cs))).filter
    (fun t => t ≠ ""))

/-- `selected_subreddits` (app.py line 80): `None` when the text field is
empty (falsy), otherwise the cleaned list truncated to its first 5 entries. -/
def selected_subreddits (custom_subs : String) : Option (List String) :=
  if custom_subs = "" then none
  else some ((cleaned_sources custom_subs).take 5)

/-- The run button (app.py lines 83-85): the guarded block runs only when the
button was pressed *and* `keyword` is truthy (non-empty).  `none` models the
no-op case in which no fetch happens and nothing is rendered. -/
def run_button (w : World) (pressed : Bool) (keyword : String) (days : Nat)
    (custom_subs : String) : Option (List Record) :=
  if pressed && keyword ≠ "" then
    some (get_reddit_comments w keyword days (selected_subreddits custom_subs))
  else none

/-- The DataFrame/CSV column names: the keys of the dict built at app.py
lines 52-59, in construction order. -/
def df_columns : List String :=
  ["Comment", "Score", "Submission Title", "Subreddit", "Permalink", "Created"]

/-- One CSV data row: the values of a record under the columns of
`df_columns`, each rendered as text by the CSV serializer. -/
def recordRow (r : Record) : List String :=
  [r.comment, toString r.score, r.submissionTitle, r.subreddit, r.permalink, toString r.created]

/-- The artifact handed to `st.download_button` (app.py lines 103-104):
filename `f"{keyword}_reddit_comments.csv"`, byte encoding `'utf-8'`, and the
CSV content of `df.to_csv(index=False)`: a header row of the DataFrame
columns followed by one row per record. -/
structure Download where
  file_name : String
  encoding : String
  content : List (List String)
  deriving DecidableEq

/-- The CSV download built from the keyword and the fetched records. -/
def csv_download (keyword : String) (rows : List Record) : Download where
  file_name := keyword ++ "_reddit_comments.csv"
  encoding := "utf-8"
  content := df_columns :: rows.map recordRow

/-- The records produced, in order, by the matching comments of `cs` when
hosted in submission `sub`. -/
def matchRecords (keyword : String) (start_date end_date : Int) (sub : Submission)
    (cs : List Comment) : List Record :=
  (cs.filter (commentMatches keyword start_date end_date)).map (mkRecord sub)

/-- The untruncated records of one submission: its matching comments in tree
order. -/
def submissionRecords (keyword : String) (start_date end_date : Int) (sub : Submission) :
    List Record :=
  matchRecords keyword start_date end_date sub sub.comments

/-- The untruncated traversal of one source: no records when the fetch
fails, otherwise every matching comment of every in-window submission, in
search order. -/
def sourceRecords (w : World) (keyword : String) (start_date end_date : Int) (q : String)
    (src : String) : List Record :=
  match w.search ⟨src, q, "top", 100, "year"⟩ with
  | Except.error _ => []
  | Except.ok subs =>
      (subs.filter (inWindow start_date end_date)).flatMap
        (submissionRecords keyword start_date end_date)

/-- The full (uncapped) traversal of a query: sources in input order, then
submissions in search order, then comments in tree order. -/
def fullTraversal (w : World) (keyword : String) (days : Nat)
    (subreddits : Option (List String)) : List Record :=
  (target_subreddits subreddits).flatMap
    (sourceRecords w keyword (w.now - (days : Int) * 86400) w.now (queryOf keyword))

/-! Concrete test data: a small fixed world used to exercise the collector
on explicit inputs. -/

/-- A comment whose body contains the keyword `"a"`. -/
def cA : Comment := ⟨"a comment", 1, "/r/A/c1", 999000000⟩

/-- A second matching comment, hosted in source `"B"`. -/
def cB : Comment := ⟨"another a", 2, "/r/B/c1", 999000000⟩

/-- A submission in source `"A"` carrying 100 matching comments. -/
def subA : Submission := ⟨"a post", "A", 999000000, List.replicate 100 cA⟩

/-- A submission in source `"B"` carrying one matching comment. -/
def subB : Submission := ⟨"a post too", "B", 999000000, [cB]⟩

/-- A fixed world: source `"A"` yields `subA`, source `"B"` yields `subB`,
source `"ERR"` raises, and every other search comes back empty.  `now` is
epoch second 1000000000; with `days = 30` the window starts at 997408000,
so every timestamp above lies inside the window. -/
def demoWorld : World where
  now := 1000000000
  search := fun r =>
    if r.subreddit = "A" then Except.ok [subA]
    else if r.subreddit = "B" then Except.ok [subB]
    else if r.subreddit = "ERR" then Except.error "boom"
    else Except.ok []

/-! Characterization of the Python substring test. -/

theorem beginsWith_iff (needle : List Char) :
    ∀ haystack : List Char, beginsWith needle haystack = true ↔ ∃ t, haystack = needle ++ t := by
  induction needle with
  | nil => intro h; simp [beginsWith]
  | cons a as ih =>
    intro h
    cases h with
    | nil => simp [beginsWith]
    | cons b bs =>
      simp only [beginsWith, Bool.and_eq_true, decide_eq_true_eq, ih, List.cons_append]
      constructor
      · rintro ⟨rfl, t, rfl⟩
        exact ⟨t, rfl⟩
      · rintro ⟨t, ht⟩
        rw [List.cons.injEq] at ht
        exact ⟨ht.1.symm, t, ht.2⟩

theorem containsSeq_iff (needle : List Char) :
    ∀ haystack : List Char, containsSeq needle haystack = true ↔
      ∃ pre post, haystack = pre ++ needle ++ post := by
  intro haystack
  induction haystack with
  | nil =>
    simp only [containsSeq, beginsWith_iff]
    constructor
    · rintro ⟨t, ht⟩
      exact ⟨[], t, by simpa using ht⟩
    · rintro ⟨pre, post, h⟩
      rw [eq_comm, List.append_eq_nil, List.append_eq_nil] at h
      exact ⟨[], by simp [h.1.2]⟩
  | cons c cs ih =>
    simp only [containsSeq, Bool.or_eq_true, beginsWith_iff, ih]
    constructor
    · rintro (⟨t, ht⟩ | ⟨pre, post, h⟩)
      · exact ⟨[], t, by simpa using ht⟩
      · exact ⟨c :: pre, post, by simp [h]⟩
    · rintro ⟨pre, post, h⟩
      cases pre with
      | nil => exact Or.inl ⟨post, by simpa using h⟩
      | cons p ps =>
        simp only [List.cons_append, List.cons.injEq] at h
        exact Or.inr ⟨ps, post, h.2⟩

/-- The append guard unfolded into its three propositional conjuncts. -/
theorem commentMatches_true_iff (keyword : String) (s e : Int) (c : Comment) :
    commentMatches keyword s e c = true ↔
      (containsSeq (lower keyword) (lower c.body) = true ∧
        s ≤ c.created_utc ∧ c.created_utc ≤ e) := by
  simp [commentMatches]

/-- The submission window test unfolded. -/
theorem inWindow_true_iff (s e : Int) (sub : Submission) :
    inWindow s e sub = true ↔ (s ≤ sub.created_utc ∧ sub.created_utc ≤ e) := by
  simp [inWindow]

/-! Specification of the three loops: each extends the accumulator with an
order-preserving selection of the untruncated traversal, and reproduces the
whole traversal while the global count stays within the cap. -/

theorem processComments_spec (kw : String) (s e : Int) (sub : Submission) :
    ∀ (cs : List Comment) (acc : List Record),
      ∃ l, processComments kw s e sub cs acc = acc ++ l ∧
        l.Sublist (matchRecords kw s e sub cs) ∧
        (acc.length + (matchRecords kw s e sub cs).length ≤ 100 →
          processComments kw s e sub cs acc = acc ++ matchRecords kw s e sub cs) := by
  intro cs
  induction cs with
  | nil =>
    intro acc
    exact ⟨[], by simp [processComments], by simp [matchRecords],
      by simp [processComments, matchRecords]⟩
  | cons c cs ih =>
    intro acc
    by_cases hm : commentMatches kw s e c = true
    · have hone : matchRecords kw s e sub (c :: cs) =
          mkRecord sub c :: matchRecords kw s e sub cs := by
        simp [matchRecords, hm]
      by_cases hlen : 100 ≤ (acc ++ [mkRecord sub c]).length
      · have hstep : processComments kw s e sub (c :: cs) acc = acc ++ [mkRecord sub c] := by
          simp only [processComments]
          rw [if_pos hm, if_pos hlen]
        refine ⟨[mkRecord sub c], hstep, ?_, ?_⟩
        · rw [hone]
          exact (List.nil_sublist _).cons₂ _
        · intro hcap
          have h0 : matchRecords kw s e sub cs = [] := by
            apply List.length_eq_zero.mp
            rw [hone] at hcap
            simp only [List.length_cons] at hcap
            have hlen1 := hlen
            simp only [List.length_append, List.length_cons, List.length_nil] at hlen1
            omega
          rw [hone, h0, hstep]
      · have hstep : processComments kw s e sub (c :: cs) acc =
            processComments kw s e sub cs (acc ++ [mkRecord sub c]) := by
          simp only [processComments]
          rw [if_pos hm, if_neg hlen]
        obtain ⟨l, h1, h2, h3⟩ := ih (acc ++ [mkRecord sub c])
        refine ⟨mkRecord sub c :: l, ?_, ?_, ?_⟩
        · rw [hstep, h1]
          simp
        · rw [hone]
          exact h2.cons₂ _
        · intro hcap
          rw [hone] at hcap
          simp only [List.length_cons] at hcap
          have heq := h3 (by
            simp only [List.length_append, List.length_cons, List.length_nil]
            omega)
          rw [hstep, heq, hone]
          simp
    · have hsame : matchRecords kw s e sub (c :: cs) = matchRecords kw s e sub cs := by
        simp [matchRecords, hm]
      by_cases hlen : 100 ≤ acc.length
      · have hstep : processComments kw s e sub (c :: cs) acc = acc := by
          simp only [processComments]
          rw [if_neg hm, if_pos hlen]
        refine ⟨[], by simpa using hstep, List.nil_sublist _, ?_⟩
        intro hcap
        rw [hsame] at hcap
        have h0 : matchRecords kw s e sub cs = [] :=
          List.length_eq_zero.mp (by omega)
        rw [hsame, h0, hstep]
        simp
      · have hstep : processComments kw s e sub (c :: cs) acc =
            processComments kw s e sub cs acc := by
          simp only [processComments]
          rw [if_neg hm, if_neg hlen]
        obtain ⟨l, h1, h2, h3⟩ := ih acc
        refine ⟨l, by rw [hstep, h1], by rw [hsame]; exact h2, ?_⟩
        intro hcap
        rw [hsame] at hcap
        rw [hsame, hstep, h3 hcap]

/-- The comment loop only ever extends the accumulator. -/
theorem processComments_extends (kw : String) (s e : Int) (sub : Submission)
    (cs : List Comment) (acc : List Record) :
    acc.length ≤ (processComments kw s e sub cs acc).length := by
  obtain ⟨l, h1, -, -⟩ := processComments_spec kw s e sub cs acc
  rw [h1]
  simp

/-- Length bound for the comment loop: one record beyond the cap at most,
and a run entered below the cap never exceeds it. -/
theorem processComments_length (kw : String) (s e : Int) (sub : Submission) :
    ∀ (cs : List Comment) (acc : List Record),
      (processComments kw s e sub cs acc).length ≤ max (acc.length + 1) 100 := by
  intro cs
  induction cs with
  | nil =>
    intro acc
    simp only [processComments]
    omega
  | cons c cs ih =>
    intro acc
    by_cases hm : commentMatches kw s e c = true
    · by_cases hlen : 100 ≤ (acc ++ [mkRecord sub c]).length
      · have hstep : processComments kw s e sub (c :: cs) acc = acc ++ [mkRecord sub c] := by
          simp only [processComments]
          rw [if_pos hm, if_pos hlen]
        rw [hstep]
        simp only [List.length_append, List.length_cons, List.length_nil]
        omega
      · have hstep : processComments kw s e sub (c :: cs) acc =
            processComments kw s e sub cs (acc ++ [mkRecord sub c]) := by
          simp only [processComments]
          rw [if_pos hm, if_neg hlen]
        rw [hstep]
        have h2 := ih (acc ++ [mkRecord sub c])
        have h3 := hlen
        simp only [List.length_append, List.length_cons, List.length_nil] at h2 h3
        omega
    · by_cases hlen : 100 ≤ acc.length
      · have hstep : processComments kw s e sub (c :: cs) acc = acc := by
          simp only [processComments]
          rw [if_neg hm, if_pos hlen]
        rw [hstep]
        omega
      · have hstep : processComments kw s e sub (c :: cs) acc =
            processComments kw s e sub cs acc := by
          simp only [processComments]
          rw [if_neg hm, if_neg hlen]
        rw [hstep]
        exact ih acc

theorem processSubmissions_spec (kw : String) (s e : Int) :
    ∀ (subs : List Submission) (acc : List Record),
      ∃ l, processSubmissions kw s e subs acc = acc ++ l ∧
        l.Sublist ((subs.filter (inWindow s e)).flatMap (submissionRecords kw s e)) ∧
        (acc.length + ((subs.filter (inWindow s e)).flatMap (submissionRecords kw s e)).length ≤ 100 →
          processSubmissions kw s e subs acc =
            acc ++ (subs.filter (inWindow s e)).flatMap (submissionRecords kw s e)) := by
  intro subs
  induction subs with
  | nil =>
    intro acc
    exact ⟨[], by simp [processSubmissions], by simp, by simp [processSubmissions]⟩
  | cons sub rest ih =>
    intro acc
    by_cases hw : inWindow s e sub = true
    · have hfull : ((sub :: rest).filter (inWindow s e)).flatMap (submissionRecords kw s e) =
          matchRecords kw s e sub sub.comments ++
            (rest.filter (inWindow s e)).flatMap (submissionRecords kw s e) := by
        simp [List.filter_cons, hw, submissionRecords]
      obtain ⟨l1, hc1, hc2, hc3⟩ := processComments_spec kw s e sub sub.comments acc
      by_cases hlen : 100 ≤ (processComments kw s e sub sub.comments acc).length
      · have hstep : processSubmissions kw s e (sub :: rest) acc =
            processComments kw s e sub sub.comments acc := by
          simp only [processSubmissions]
          rw [if_pos hw, if_pos hlen]
        refine ⟨l1, by rw [hstep, hc1], ?_, ?_⟩
        · rw [hfull]
          exact hc2.trans (List.sublist_append_left _ _)
        · intro hcap
          rw [hfull] at hcap
          simp only [List.length_append] at hcap
          have heq := hc3 (by omega)
          have hlen1 := hlen
          rw [heq] at hlen1
          simp only [List.length_append] at hlen1
          have h0 : (rest.filter (inWindow s e)).flatMap (submissionRecords kw s e) = [] :=
            List.length_eq_zero.mp (by omega)
          rw [hfull, h0, hstep, heq]
          simp
      · have hstep : processSubmissions kw s e (sub :: rest) acc =
            processSubmissions kw s e rest (processComments kw s e sub sub.comments acc) := by
          simp only [processSubmissions]
          rw [if_pos hw, if_neg hlen]
        obtain ⟨l2, hr1, hr2, hr3⟩ := ih (processComments kw s e sub sub.comments acc)
        refine ⟨l1 ++ l2, ?_, ?_, ?_⟩
        · rw [hstep, hr1, hc1]
          simp
        · rw [hfull]
          exact hc2.append hr2
        · intro hcap
          rw [hfull] at hcap
          simp only [List.length_append] at hcap
          have heq := hc3 (by omega)
          have hcaplen : (processComments kw s e sub sub.comments acc).length =
              acc.length + (matchRecords kw s e sub sub.comments).length := by
            rw [heq]
            simp
          have heq2 := hr3 (by rw [hcaplen]; omega)
          rw [hfull, hstep, heq2, heq]
          simp
    · have hstep : processSubmissions kw s e (sub :: rest) acc =
          processSubmissions kw s e rest acc := by
        simp only [processSubmissions]
        rw [if_neg hw]
      have hfull : ((sub :: rest).filter (inWindow s e)).flatMap (submissionRecords kw s e) =
          (rest.filter (inWindow s e)).flatMap (submissionRecords kw s e) := by
        simp [List.filter_cons, hw]
      obtain ⟨l, h1, h2, h3⟩ := ih acc
      exact ⟨l, by rw [hstep, h1], by rw [hfull]; exact h2,
        fun hcap => by rw [hfull] at hcap; rw [hfull, hstep, h3 hcap]⟩

/-- Length bound for the submission loop. -/
theorem processSubmissions_length (kw : String) (s e : Int) :
    ∀ (subs : List Submission) (acc : List Record),
      (processSubmissions kw s e subs acc).length ≤ max (acc.length + 1) 100 := by
  intro subs
  induction subs with
  | nil =>
    intro acc
    simp only [processSubmissions]
    omega
  | cons sub rest ih =>
    intro acc
    by_cases hw : inWindow s e sub = true
    · by_cases hlen : 100 ≤ (processComments kw s e sub sub.comments acc).length
      · have hstep : processSubmissions kw s e (sub :: rest) acc =
            processComments kw s e sub sub.comments acc := by
          simp only [processSubmissions]
          rw [if_pos hw, if_pos hlen]
        rw [hstep]
        exact processComments_length kw s e sub sub.comments acc
      · have hstep : processSubmissions kw s e (sub :: rest) acc =
            processSubmissions kw s e rest (processComments kw s e sub sub.comments acc) := by
          simp only [processSubmissions]
          rw [if_pos hw, if_neg hlen]
        rw [hstep]
        have h2 := ih (processComments kw s e sub sub.comments acc)
        omega
    · have hstep : processSubmissions kw s e (sub :: rest) acc =
          processSubmissions kw s e rest acc := by
        simp only [processSubmissions]
        rw [if_neg hw]
      rw [hstep]
      exact ih acc

theorem processSources_spec (w : World) (kw : String) (s e : Int) (q : String) :
    ∀ (srcs : List String) (acc : List Record),
      ∃ l, processSources w kw s e q srcs acc = acc ++ l ∧
        l.Sublist (srcs.flatMap (sourceRecords w kw s e q)) ∧
        (acc.length + (srcs.flatMap (sourceRecords w kw s e q)).length ≤ 100 →
          processSources w kw s e q srcs acc =
            acc ++ srcs.flatMap (sourceRecords w kw s e q)) := by
  intro srcs
  induction srcs with
  | nil =>
    intro acc
    exact ⟨[], by simp [processSources], by simp, by simp [processSources]⟩
  | cons t ts ih =>
    intro acc
    cases hsearch : w.search ⟨t, q, "top", 100, "year"⟩ with
    | error err =>
      have hstep : processSources w kw s e q (t :: ts) acc =
          processSources w kw s e q ts acc := by
        simp only [processSources, hsearch]
      have hsrc : sourceRecords w kw s e q t = [] := by
        simp [sourceRecords, hsearch]
      obtain ⟨l, h1, h2, h3⟩ := ih acc
      refine ⟨l, by rw [hstep, h1], ?_, ?_⟩
      · simp only [List.flatMap_cons, hsrc, List.nil_append]
        exact h2
      · intro hcap
        simp only [List.flatMap_cons, hsrc, List.nil_append] at hcap ⊢
        rw [hstep, h3 hcap]
    | ok subs =>
      have hstep : processSources w kw s e q (t :: ts) acc =
          processSources w kw s e q ts (processSubmissions kw s e subs acc) := by
        simp only [processSources, hsearch]
      have hsrc : sourceRecords w kw s e q t =
          (subs.filter (inWindow s e)).flatMap (submissionRecords kw s e) := by
        simp [sourceRecords, hsearch]
      obtain ⟨l1, hc1, hc2, hc3⟩ := processSubmissions_spec kw s e subs acc
      obtain ⟨l2, hr1, hr2, hr3⟩ := ih (processSubmissions kw s e subs acc)
      refine ⟨l1 ++ l2, ?_, ?_, ?_⟩
      · rw [hstep, hr1, hc1]
        simp
      · simp only [List.flatMap_cons, hsrc]
        exact hc2.append hr2
      · intro hcap
        simp only [List.flatMap_cons, hsrc, List.length_append] at hcap
        have heq := hc3 (by omega)
        have hcaplen : (processSubmissions kw s e subs acc).length =
            acc.length +
              ((subs.filter (inWindow s e)).flatMap (submissionRecords kw s e)).length := by
          rw [heq]
          simp
        have heq2 := hr3 (by rw [hcaplen]; omega)
        simp only [List.flatMap_cons, hsrc]
        rw [hstep, heq2, heq]
        simp

/-- Length bound for the source loop: each source beyond the one that
reaches the cap can contribute at most one extra record. -/
theorem processSources_length (w : World) (kw : String) (s e : Int) (q : String) :
    ∀ (srcs : List String) (acc : List Record),
      (processSources w kw s e q srcs acc).length ≤ max acc.length 100 + srcs.length := by
  intro srcs
  induction srcs with
  | nil =>
    intro acc
    simp only [processSources, List.length_nil]
    omega
  | cons t ts ih =>
    intro acc
    cases hsearch : w.search ⟨t, q, "top", 100, "year"⟩ with
    | error err =>
      have hstep : processSources w kw s e q (t :: ts) acc =
          processSources w kw s e q ts acc := by
        simp only [processSources, hsearch]
      rw [hstep]
      have h2 := ih acc
      simp only [List.length_cons]
      omega
    | ok subs =>
      have hstep : processSources w kw s e q (t :: ts) acc =
          processSources w kw s e q ts (processSubmissions kw s e subs acc) := by
        simp only [processSources, hsearch]
      rw [hstep]
      have h1 := processSubmissions_length kw s e subs acc
      have h2 := ih (processSubmissions kw s e subs acc)
      simp only [List.length_cons]
      omega

/-- The target list is never empty: a falsy `subreddits` argument falls back
to the single sentinel `"all"`. -/
theorem target_subreddits_ne_nil (subs : Option (List String)) :
    target_subreddits subs ≠ [] := by
  cases subs with
  | none => simp [target_subreddits]
  | some l => cases l <;> simp [target_subreddits]

/-- The collector unfolded into the source loop over the target list. -/
theorem get_reddit_comments_eq (w : World) (kw : String) (days : Nat)
    (subs : Option (List String)) :
    get_reddit_comments w kw days subs =
      processSources w kw (w.now - (days : Int) * 86400) w.now (queryOf kw)
        (target_subreddits subs) [] := rfl

/-- The collector's output is an order-preserving selection of the full
traversal, and equals the full traversal whenever that fits the cap. -/
theorem collect_spec (w : World) (kw : String) (days : Nat) (subs : Option (List String)) :
    (get_reddit_comments w kw days subs).Sublist (fullTraversal w kw days subs) ∧
      ((fullTraversal w kw days subs).length ≤ 100 →
        get_reddit_comments w kw days subs = fullTraversal w kw days subs) := by
  obtain ⟨l, h1, h2, h3⟩ := processSources_spec w kw (w.now - (days : Int) * 86400) w.now
    (queryOf kw) (target_subreddits subs) []
  constructor
  · rw [get_reddit_comments_eq, h1]
    simpa [fullTraversal] using h2
  · intro hcap
    rw [get_reddit_comments_eq, h3 (by simpa [fullTraversal] using hcap)]
    simp [fullTraversal]

/-- Provenance of a collected record: it was built by `mkRecord` from a
matching comment of an in-window submission returned by a successful search
of one of the target sources. -/
theorem mem_collect (w : World) (kw : String) (days : Nat) (subs : Option (List String))
    (r : Record) (hr : r ∈ get_reddit_comments w kw days subs) :
    ∃ src subsList sub c,
      src ∈ target_subreddits subs ∧
      w.search ⟨src, queryOf kw, "top", 100, "year"⟩ = Except.ok subsList ∧
      sub ∈ subsList ∧
      inWindow (w.now - (days : Int) * 86400) w.now sub = true ∧
      c ∈ sub.comments ∧
      commentMatches kw (w.now - (days : Int) * 86400) w.now c = true ∧
      r = mkRecord sub c := by
  have hmem : r ∈ fullTraversal w kw days subs := (collect_spec w kw days subs).1.subset hr
  simp only [fullTraversal, List.mem_flatMap] at hmem
  obtain ⟨src, hsrc, hmem⟩ := hmem
  cases hsearch : w.search ⟨src, queryOf kw, "top", 100, "year"⟩ with
  | error err =>
    rw [sourceRecords, hsearch] at hmem
    simp at hmem
  | ok subsList =>
    rw [sourceRecords, hsearch] at hmem
    simp only [List.mem_flatMap, List.mem_filter] at hmem
    obtain ⟨sub, ⟨hsubmem, hwin⟩, hrec⟩ := hmem
    simp only [submissionRecords, matchRecords, List.mem_map, List.mem_filter] at hrec
    obtain ⟨c, ⟨hcmem, hcm⟩, hrc⟩ := hrec
    exact ⟨src, subsList, sub, c, hsrc, hsearch, hsubmem, hwin, hcmem, hcm, hrc.symm⟩

/-- Removing a source whose fetch raises leaves the whole run unchanged:
the caught exception is a no-op on the accumulated records. -/
theorem processSources_erase (w : World) (kw : String) (s e : Int) (q : String)
    (f : String) (err : String)
    (hf : w.search ⟨f, q, "top", 100, "year"⟩ = Except.error err) :
    ∀ (pre post : List String) (acc : List Record),
      processSources w kw s e q (pre ++ f :: post) acc =
        processSources w kw s e q (pre ++ post) acc := by
  intro pre
  induction pre with
  | nil =>
    intro post acc
    simp only [List.nil_append]
    simp only [processSources, hf]
  | cons p ps ih =>
    intro post acc
    simp only [List.cons_append]
    cases hsearch : w.search ⟨p, q, "top", 100, "year"⟩ with
    | error e2 =>
      simp only [processSources, hsearch]
      exact ih post acc
    | ok subsList =>
      simp only [processSources, hsearch]
      exact ih post _

/-! Claim theorems. -/

/-- C1, counterexample to the claim as stated: with sources `["A", "B"]`,
where source A alone already yields 100 records, the collector returns more
than 100 records.  The cap check sits after the append and the outer source
loop has no cap check, so after the cap is reached each later source still
appends its first matching comment (here: 101 records). -/
theorem claim1_counterexample :
    100 < (get_reddit_comments demoWorld "a" 30 (some ["A", "B"])).length := by
  decide

/-- C1, amended: the result holds at most `100 + (number of target sources − 1)`
records.  Within the source that reaches 100 appending stops at once, but
each subsequent source can append one further record before its own
early-exit triggers. -/
theorem claim1_thm (w : World) (kw : String) (days : Nat) (subs : Option (List String)) :
    (get_reddit_comments w kw days subs).length ≤
      100 + ((target_subreddits subs).length - 1) := by
  cases htarget : target_subreddits subs with
  | nil => exact absurd htarget (target_subreddits_ne_nil subs)
  | cons t ts =>
    rw [get_reddit_comments_eq, htarget]
    cases hsearch : w.search ⟨t, queryOf kw, "top", 100, "year"⟩ with
    | error err =>
      have hstep : processSources w kw (w.now - (days : Int) * 86400) w.now (queryOf kw)
          (t :: ts) [] =
          processSources w kw (w.now - (days : Int) * 86400) w.now (queryOf kw) ts [] := by
        simp only [processSources, hsearch]
      rw [hstep]
      have h2 := processSources_length w kw (w.now - (days : Int) * 86400) w.now
        (queryOf kw) ts []
      simp only [List.length_nil, List.length_cons] at h2 ⊢
      omega
    | ok subsList =>
      have hstep : processSources w kw (w.now - (days : Int) * 86400) w.now (queryOf kw)
          (t :: ts) [] =
          processSources w kw (w.now - (days : Int) * 86400) w.now (queryOf kw) ts
            (processSubmissions kw (w.now - (days : Int) * 86400) w.now subsList []) := by
        simp only [processSources, hsearch]
      rw [hstep]
      have h1 := processSubmissions_length kw (w.now - (days : Int) * 86400) w.now subsList []
      have h2 := processSources_length w kw (w.now - (days : Int) * 86400) w.now (queryOf kw) ts
        (processSubmissions kw (w.now - (days : Int) * 86400) w.now subsList [])
      simp only [List.length_nil, List.length_cons] at h1 h2 ⊢
      omega

/-- C2: every record returned by the collector was built from a comment whose
creation timestamp lies inside the inclusive window
`[now − days·86400, now]` computed at query start; both boundary instants
satisfy the non-strict inequalities. -/
theorem claim2_thm (w : World) (kw : String) (days : Nat) (subs : Option (List String))
    (r : Record) (hr : r ∈ get_reddit_comments w kw days subs) :
    ∃ sub c, c ∈ sub.comments ∧ r = mkRecord sub c ∧
      w.now - (days : Int) * 86400 ≤ c.created_utc ∧ c.created_utc ≤ w.now := by
  obtain ⟨src, subsList, sub, c, -, -, -, -, hcmem, hcm, hrc⟩ :=
    mem_collect w kw days subs r hr
  rw [commentMatches_true_iff] at hcm
  exact ⟨sub, c, hcmem, hrc, hcm.2.1, hcm.2.2⟩

/-- C2 witness: the record collected from source B in the demo world comes
from a comment created inside the window. -/
theorem claim2_witness :
    ∃ sub c, c ∈ sub.comments ∧ mkRecord subB cB = mkRecord sub c ∧
      demoWorld.now - ((30 : Nat) : Int) * 86400 ≤ c.created_utc ∧
      c.created_utc ≤ demoWorld.now :=
  claim2_thm demoWorld "a" 30 (some ["B"]) (mkRecord subB cB) (by decide)

/-- C3: a source whose fetch raises is caught and skipped; the collector
returns exactly what it would have returned had the failing source not been
listed, so no exception escapes and the records of every other source are
retained. -/
theorem claim3_thm (w : World) (kw : String) (days : Nat) (pre post : List String)
    (f : String) (err : String) (hne : pre ++ post ≠ [])
    (hf : w.search ⟨f, queryOf kw, "top", 100, "year"⟩ = Except.error err) :
    get_reddit_comments w kw days (some (pre ++ f :: post)) =
      get_reddit_comments w kw days (some (pre ++ post)) := by
  have h1 : target_subreddits (some (pre ++ f :: post)) = pre ++ f :: post := by
    cases pre <;> rfl
  have h2 : target_subreddits (some (pre ++ post)) = pre ++ post := by
    cases hpp : pre ++ post with
    | nil => exact absurd hpp hne
    | cons a as => rfl
  rw [get_reddit_comments_eq, get_reddit_comments_eq, h1, h2]
  exact processSources_erase w kw (w.now - (days : Int) * 86400) w.now (queryOf kw)
    f err hf pre post []

/-- C3 witness: in the demo world, appending the raising source `"ERR"` after
`"B"` leaves the result identical to querying `"B"` alone. -/
theorem claim3_witness :
    (["B"] ++ ([] : List String) ≠ []) ∧
      get_reddit_comments demoWorld "a" 30 (some (["B"] ++ "ERR" :: [])) =
        get_reddit_comments demoWorld "a" 30 (some (["B"] ++ [])) :=
  ⟨by decide, claim3_thm demoWorld "a" 30 ["B"] [] "ERR" "boom" (by decide) rfl⟩

/-- C4: given the cap has not been reached, a comment produces a record
exactly when the lowered keyword occurs contiguously inside the lowered
comment body and the comment's timestamp lies inside the inclusive window. -/
theorem claim4_thm (kw : String) (s e : Int) (sub : Submission) (c : Comment)
    (acc : List Record) (hcap : acc.length < 100) :
    processComments kw s e sub [c] acc = acc ++ [mkRecord sub c] ↔
      ((∃ pre post, lower c.body = pre ++ lower kw ++ post) ∧
        s ≤ c.created_utc ∧ c.created_utc ≤ e) := by
  have hunfold : processComments kw s e sub [c] acc =
      if commentMatches kw s e c then acc ++ [mkRecord sub c] else acc := by
    by_cases hm : commentMatches kw s e c = true
    · by_cases hlen : 100 ≤ (acc ++ [mkRecord sub c]).length
      · simp only [processComments]
        rw [if_pos hm, if_pos hlen]
      · simp only [processComments]
        rw [if_pos hm, if_neg hlen]
    · by_cases hlen : 100 ≤ acc.length
      · simp only [processComments]
        rw [if_neg hm, if_pos hlen]
      · simp only [processComments]
        rw [if_neg hm, if_neg hlen]
  rw [hunfold]
  by_cases hm : commentMatches kw s e c = true
  · rw [if_pos hm]
    have hprops := (commentMatches_true_iff kw s e c).mp hm
    exact ⟨fun _ => ⟨(containsSeq_iff _ _).mp hprops.1, hprops.2.1, hprops.2.2⟩,
      fun _ => rfl⟩
  · rw [if_neg hm]
    constructor
    · intro h
      have hlen := congrArg List.length h
      simp only [List.length_append, List.length_cons, List.length_nil] at hlen
      omega
    · rintro ⟨hsubstr, h1, h2⟩
      exact absurd ((commentMatches_true_iff kw s e c).mpr
        ⟨(containsSeq_iff _ _).mpr hsubstr, h1, h2⟩) hm

/-- C4 witness: the demo comment `cB` (body `"another a"`, keyword `"a"`,
created inside the window) is appended from the empty accumulator. -/
theorem claim4_witness :
    (([] : List Record).length < 100) ∧
      (processComments "a" 997408000 1000000000 subB [cB] [] = [] ++ [mkRecord subB cB] ↔
        ((∃ pre post, lower cB.body = pre ++ lower "a" ++ post) ∧
          997408000 ≤ cB.created_utc ∧ cB.created_utc ≤ 1000000000)) :=
  ⟨by decide, claim4_thm "a" 997408000 1000000000 subB cB [] (by decide)⟩

/-- C5, counterexample to the claim as stated: for the input `","` the
split-trim-drop-take recipe yields the empty list, but the source list the
fetch actually iterates is the fallback sentinel `["all"]`. -/
theorem claim5_counterexample :
    target_subreddits (selected_subreddits ",") ≠ (cleaned_sources ",").take 5 := by
  decide

/-- C5, amended: the sources actually used are the first 5 entries of the
split-on-comma, stripped, non-blank list whenever that list is non-empty;
when it is empty (blank field, or only commas and spaces) the single
sentinel `"all"` is used instead. -/
theorem claim5_thm (custom_subs : String) :
    target_subreddits (selected_subreddits custom_subs) =
      if (cleaned_sources custom_subs).take 5 = [] then ["all"]
      else (cleaned_sources custom_subs).take 5 := by
  by_cases hempty : custom_subs = ""
  · subst hempty
    have hnil : cleaned_sources "" = [] := by decide
    simp [selected_subreddits, target_subreddits, hnil]
  · rw [selected_subreddits, if_neg hempty]
    cases htake : (cleaned_sources custom_subs).take 5 with
    | nil => simp [target_subreddits, htake]
    | cons a as => simp [target_subreddits, htake]

/-- C6: with an empty keyword the guarded fetch block never runs, whatever
the button state and the other inputs: the button press is a no-op. -/
theorem claim6_thm (w : World) (pressed : Bool) (days : Nat) (custom_subs : String) :
    run_button w pressed "" days custom_subs = none := by
  simp [run_button]

/-- C7, counterexample to the claim as stated: the CSV has exactly the six
columns below and in particular no column for the `author` field that the
claim's seven-field enumeration includes. -/
theorem claim7_counterexample :
    df_columns = ["Comment", "Score", "Submission Title", "Subreddit", "Permalink", "Created"] ∧
      df_columns.length ≠ 7 := by
  decide

/-- C7, amended: the download uses filename `{keyword}_reddit_comments.csv`
and UTF-8 encoding, and its columns are exactly the CommentRecord fields this
variant materializes — body, score, parent submission title, source name,
permalink URL, created date — with one cell per column in every data row;
the optional author and sentiment fields have no column. -/
theorem claim7_thm (kw : String) (rows : List Record) :
    (csv_download kw rows).file_name = kw ++ "_reddit_comments.csv" ∧
      (csv_download kw rows).encoding = "utf-8" ∧
      (csv_download kw rows).content =
        ["Comment", "Score", "Submission Title", "Subreddit", "Permalink", "Created"] ::
          rows.map recordRow ∧
      ∀ r ∈ rows, (recordRow r).length = df_columns.length := by
  exact ⟨rfl, rfl, rfl, fun r _ => rfl⟩

/-- C8: the collector's output lists records exactly in traversal order —
source position, then submission order, then comment order — being an
order-preserving selection of the full traversal, and coinciding with the
full traversal whenever it fits the cap; no reordering or sorting happens. -/
theorem claim8_thm (w : World) (kw : String) (days : Nat) (subs : Option (List String)) :
    (get_reddit_comments w kw days subs).Sublist (fullTraversal w kw days subs) ∧
      ((fullTraversal w kw days subs).length ≤ 100 →
        get_reddit_comments w kw days subs = fullTraversal w kw days subs) :=
  collect_spec w kw days subs

/-- C8 witness: on the single-source demo query the traversal fits the cap
and the collector returns it verbatim. -/
theorem claim8_witness :
    get_reddit_comments demoWorld "a" 30 (some ["B"]) =
      fullTraversal demoWorld "a" 30 (some ["B"]) :=
  (claim8_thm demoWorld "a" 30 (some ["B"])).2 (by decide)

/-- C9: every collected record comes from a submission whose own creation
timestamp lies inside the inclusive window: submissions outside the window
are skipped wholesale, so no comment of theirs is ever collected. -/
theorem claim9_thm (w : World) (kw : String) (days : Nat) (subs : Option (List String))
    (r : Record) (hr : r ∈ get_reddit_comments w kw days subs) :
    ∃ sub c, c ∈ sub.comments ∧ r = mkRecord sub c ∧
      w.now - (days : Int) * 86400 ≤ sub.created_utc ∧ sub.created_utc ≤ w.now := by
  obtain ⟨src, subsList, sub, c, -, -, -, hwin, hcmem, -, hrc⟩ :=
    mem_collect w kw days subs r hr
  rw [inWindow_true_iff] at hwin
  exact ⟨sub, c, hcmem, hrc, hwin.1, hwin.2⟩

/-- C9 witness: the record collected from source B comes from the submission
`subB`, itself created inside the window. -/
theorem claim9_witness :
    ∃ sub c, c ∈ sub.comments ∧ mkRecord subB cB = mkRecord sub c ∧
      demoWorld.now - ((30 : Nat) : Int) * 86400 ≤ sub.created_utc ∧
      sub.created_utc ≤ demoWorld.now :=
  claim9_thm demoWorld "a" 30 (some ["B"]) (mkRecord subB cB) (by decide)

/-- C10: a non-empty source field that cleans to no entries (only commas and
blanks) makes the fetch fall back to the single `"all"` sentinel, exactly as
a blank field does. -/
theorem claim10_thm (custom_subs : String) (hne : custom_subs ≠ "")
    (hblank : cleaned_sources custom_subs = []) :
    target_subreddits (selected_subreddits custom_subs) = ["all"] ∧
      target_subreddits (selected_subreddits custom_subs) =
        target_subreddits (selected_subreddits "") := by
  have h1 : target_subreddits (selected_subreddits custom_subs) = ["all"] := by
    rw [selected_subreddits, if_neg hne, hblank]
    rfl
  exact ⟨h1, by rw [h1]; rfl⟩

/-- C10 witness: the input `" , "` is non-empty, cleans to no entries, and
the fetch uses `["all"]`, as for a blank field. -/
theorem claim10_witness :
    (" , " ≠ "") ∧ cleaned_sources " , " = [] ∧
      (target_subreddits (selected_subreddits " , ") = ["all"] ∧
        target_subreddits (selected_subreddits " , ") =
          target_subreddits (selected_subreddits "")) :=
  ⟨by decide, by decide, claim10_thm " , " (by decide) (by decide)⟩

end RedditApp
